import Mathlib

/-!
Verification of the closest-pair divide-and-conquer program `closest_points.cpp`.

The C++ source is shallowly embedded as follows:

* `double` coordinates are idealized as exact rationals `ℚ` (every finite double is a
  rational number); the derived distances are exact reals.
* the `double` distance values, which include the sentinel
  `std::numeric_limits<double>::infinity()`, live in `EReal`;
* `std::vector<Point>` becomes `List Point`; the `for` loops of `bruteForce`,
  `closestInStrip` and the `Py`-partition become structural recursions / filters that
  process the elements in the same order, including the early `break` of the strip scan;
* `std::sort` with a strict comparator `lt` is modelled by `List.mergeSort` with the
  complementary total preorder `fun a b => !lt b a`; since points that tie under the
  comparators used here are equal as values, the sorted sequence is unique and the
  modelling is exact.

Source line numbers below refer to `closest_points.cpp`.
-/

namespace ClosestPoints

/-- 2-D point (`struct Point`, lines 25-28). -/
structure Point where
  x : ℚ
  y : ℚ
deriving DecidableEq

/-- Result record (`struct ClosestResult`, lines 30-34). -/
structure ClosestResult where
  a : Point
  b : Point
  dist : EReal

/-- The point `{0,0}` used in the sentinel results. -/
def origin : Point := ⟨0, 0⟩

/-- `dist` (lines 37-41): Euclidean distance `sqrt(dx*dx + dy*dy)`. -/
noncomputable def dist (p q : Point) : ℝ :=
  Real.sqrt (((p.x : ℝ) - q.x) * ((p.x : ℝ) - q.x) + ((p.y : ℝ) - q.y) * ((p.y : ℝ) - q.y))

/-- The update `if (d < best.dist) best = {pts[i], pts[j], d};` shared by the scans
(lines 52-54 and 70-72). -/
noncomputable def update (p q : Point) (best : ClosestResult) : ClosestResult :=
  if (dist p q : EReal) < best.dist then ⟨p, q, (dist p q : EReal)⟩ else best

/-- Inner loop of `bruteForce` (lines 50-55): compare `p` with each later point. -/
noncomputable def bfInner (p : Point) (rest : List Point) (best : ClosestResult) :
    ClosestResult :=
  match rest with
  | [] => best
  | q :: qs => bfInner p qs (update p q best)

/-- Outer loop of `bruteForce` (lines 49-56). -/
noncomputable def bfOuter (pts : List Point) (best : ClosestResult) : ClosestResult :=
  match pts with
  | [] => best
  | p :: ps => bfOuter ps (bfInner p ps best)

/-- `bruteForce` (lines 46-58). -/
noncomputable def bruteForce (pts : List Point) : ClosestResult :=
  bfOuter pts ⟨origin, origin, ⊤⟩

/-- Inner loop of `closestInStrip` (lines 67-73), including the `break` when
`(strip[j].y - strip[i].y) >= best.dist`. -/
noncomputable def stripInner (p : Point) (rest : List Point) (best : ClosestResult) :
    ClosestResult :=
  match rest with
  | [] => best
  | q :: qs =>
      if (((q.y - p.y : ℚ) : ℝ) : EReal) ≥ best.dist then best
      else stripInner p qs (update p q best)

/-- Outer loop of `closestInStrip` (lines 65-74). -/
noncomputable def stripOuter (strip : List Point) (best : ClosestResult) : ClosestResult :=
  match strip with
  | [] => best
  | p :: ps => stripOuter ps (stripInner p ps best)

/-- `closestInStrip` (lines 62-76). -/
noncomputable def closestInStrip (strip : List Point) (delta : EReal) : ClosestResult :=
  stripOuter strip ⟨origin, origin, delta⟩

/-- One iteration of the `Py`-partition loop of `closestRec` (lines 102-119): `true`
means `p` is pushed to `YL`, `false` to `YR`.  `xlEmpty` models `XL.empty()`; `addrNe`
models the address test `&p != &midPoint` (at the call site `midPoint` is a by-value
local copy of `Px[mid]`, a distinct object from every element of `Py`, so the source
always passes `true` there). -/
def routeLeft (midPoint p : Point) (xlEmpty addrNe : Bool) : Bool :=
  if p.x < midPoint.x ∨ (p.x = midPoint.x ∧ p.y ≤ midPoint.y) then
    if (!xlEmpty) && (decide (p.x < midPoint.x) || addrNe) then true
    else if p.x < midPoint.x then true
    else if p.x ≤ midPoint.x then true
    else false
  else false

/-- The pair `(YL, YR)` built by the loop at lines 99-119. -/
def partitionY (Py : List Point) (midPoint : Point) (xlEmpty : Bool) :
    List Point × List Point :=
  (Py.filter (fun p => routeLeft midPoint p xlEmpty true),
   Py.filter (fun p => !(routeLeft midPoint p xlEmpty true)))

/-- Line 126: `best = (leftBest.dist < rightBest.dist) ? leftBest : rightBest`. -/
noncomputable def bestOf (leftBest rightBest : ClosestResult) : ClosestResult :=
  if leftBest.dist < rightBest.dist then leftBest else rightBest

/-- Lines 130-134: the strip of points of `Py` within `delta` of the vertical line. -/
noncomputable def stripOf (Py : List Point) (midPoint : Point) (delta : EReal) : List Point :=
  Py.filter (fun p => decide ((((|p.x - midPoint.x| : ℚ) : ℝ) : EReal) < delta))

/-- Combine step of `closestRec` (lines 126-140): pick the better recursive result,
build the strip around `midPoint.x` from `Py`, and run `closestInStrip`. -/
noncomputable def combine (Py : List Point) (midPoint : Point)
    (leftBest rightBest : ClosestResult) : ClosestResult :=
  let best := bestOf leftBest rightBest
  let delta := best.dist
  let strip := stripOf Py midPoint delta
  let stripBest := closestInStrip strip delta
  if stripBest.dist < best.dist then stripBest else best

/-- `closestRec` (lines 81-141). -/
noncomputable def closestRec (Px Py : List Point) : ClosestResult :=
  if h : Px.length ≤ 3 then
    bruteForce Px
  else
    let midPoint := Px.get ⟨Px.length / 2, by omega⟩
    let XL := Px.take (Px.length / 2)
    let XR := Px.drop (Px.length / 2)
    let YLR := partitionY Py midPoint XL.isEmpty
    let leftBest := closestRec XL YLR.1
    let rightBest := closestRec XR YLR.2
    combine Py midPoint leftBest rightBest
termination_by Px.length
decreasing_by
  · simp only [XL, List.length_take]
    omega
  · simp only [XR, List.length_drop]
    omega

/-- The strict x-comparator of the `std::sort` call at lines 152-155. -/
def cmpX (a b : Point) : Bool :=
  if a.x ≠ b.x then decide (a.x < b.x) else decide (a.y < b.y)

/-- The strict y-comparator of the `std::sort` call at lines 156-159. -/
def cmpY (a b : Point) : Bool :=
  if a.y ≠ b.y then decide (a.y < b.y) else decide (a.x < b.x)

/-- `std::sort` with strict comparator `lt`, modelled by `mergeSort` under the induced
total preorder `fun a b => !(lt b a)`. -/
def sortBy (lt : Point → Point → Bool) (pts : List Point) : List Point :=
  pts.mergeSort (fun a b => !(lt b a))

/-- `closestPair` (lines 144-162). -/
noncomputable def closestPair (pts : List Point) : ClosestResult :=
  if pts.length < 2 then ⟨origin, origin, ⊤⟩
  else closestRec (sortBy cmpX pts) (sortBy cmpY pts)

/-! ### Derived notions used to state the specification claims -/

/-- Non-strict lexicographic order on points: x first, then y.  This is exactly the
predicate deciding membership in `YL` (see `routeLeft_eq_lex`), and the order in which
`cmpX` sorts. -/
def lexXle (a b : Point) : Prop := a.x < b.x ∨ (a.x = b.x ∧ a.y ≤ b.y)

/-- Non-strict lexicographic order on points: y first, then x (the order of `cmpY`). -/
def lexYle (a b : Point) : Prop := a.y < b.y ∨ (a.y = b.y ∧ a.x ≤ b.x)

instance (a b : Point) : Decidable (lexXle a b) := by unfold lexXle; infer_instance

instance (a b : Point) : Decidable (lexYle a b) := by unfold lexYle; infer_instance

/-- `p` and `q` occur at two distinct positions of `l` (as a sub-multiset). -/
def Pairable (l : List Point) (p q : Point) : Prop :=
  (p ::ₘ q ::ₘ 0) ≤ (l : Multiset Point)

/-- All unordered pairs of a list, in the scan order of the `bruteForce` loops
(outer index first, then inner index over the remaining suffix). -/
def pairList : List Point → List (Point × Point)
  | [] => []
  | p :: ps => ps.map (fun q => (p, q)) ++ pairList ps

/-- Fold the minimum of the distances of a list of pairs, starting from `⊤`. -/
noncomputable def minDistFold (L : List (Point × Point)) : EReal :=
  L.foldr (fun pq acc => min ((dist pq.1 pq.2 : ℝ) : EReal) acc) ⊤

/-- The minimum pairwise distance of a list (`⊤` when there are fewer than two points). -/
noncomputable def minPairDist (l : List Point) : EReal :=
  minDistFold (pairList l)

/-! ### Basic facts about the distance function -/

theorem dist_nonneg (p q : Point) : 0 ≤ dist p q := Real.sqrt_nonneg _

theorem dist_comm (p q : Point) : dist p q = dist q p := by
  unfold dist
  congr 1
  ring

theorem abs_dy_le_dist (p q : Point) : |(q.y : ℝ) - p.y| ≤ dist p q := by
  unfold dist
  rw [show |(q.y : ℝ) - p.y| = Real.sqrt (((q.y : ℝ) - p.y) * ((q.y : ℝ) - p.y)) by
    rw [Real.sqrt_mul_self_eq_abs]]
  apply Real.sqrt_le_sqrt
  nlinarith [sq_nonneg ((p.x : ℝ) - q.x), sq_nonneg ((p.y : ℝ) - q.y)]

theorem abs_dx_le_dist (p q : Point) : |(q.x : ℝ) - p.x| ≤ dist p q := by
  unfold dist
  rw [show |(q.x : ℝ) - p.x| = Real.sqrt (((q.x : ℝ) - p.x) * ((q.x : ℝ) - p.x)) by
    rw [Real.sqrt_mul_self_eq_abs]]
  apply Real.sqrt_le_sqrt
  nlinarith [sq_nonneg ((p.x : ℝ) - q.x), sq_nonneg ((p.y : ℝ) - q.y)]

/-! ### The lexicographic orders -/

theorem lexXle_refl (a : Point) : lexXle a a := Or.inr ⟨rfl, le_refl _⟩

theorem lexXle_trans {a b c : Point} (h₁ : lexXle a b) (h₂ : lexXle b c) : lexXle a c := by
  rcases h₁ with h₁ | ⟨h₁x, h₁y⟩ <;> rcases h₂ with h₂ | ⟨h₂x, h₂y⟩
  · exact Or.inl (lt_trans h₁ h₂)
  · exact Or.inl (h₂x ▸ h₁)
  · exact Or.inl (h₁x ▸ h₂)
  · exact Or.inr ⟨h₁x.trans h₂x, h₁y.trans h₂y⟩

theorem lexXle_total (a b : Point) : lexXle a b ∨ lexXle b a := by
  unfold lexXle
  rcases lt_trichotomy a.x b.x with h | h | h
  · exact Or.inl (Or.inl h)
  · rcases le_total a.y b.y with h' | h'
    · exact Or.inl (Or.inr ⟨h, h'⟩)
    · exact Or.inr (Or.inr ⟨h.symm, h'⟩)
  · exact Or.inr (Or.inl h)

theorem lexXle_antisymm {a b : Point} (h₁ : lexXle a b) (h₂ : lexXle b a) : a = b := by
  rcases h₁ with h₁ | ⟨h₁x, h₁y⟩ <;> rcases h₂ with h₂ | ⟨h₂x, h₂y⟩
  · exact absurd h₂ (lt_asymm h₁)
  · exact absurd h₁ (h₂x ▸ lt_irrefl _)
  · exact absurd h₂ (h₁x ▸ lt_irrefl _)
  · cases a; cases b
    simp only [Point.mk.injEq]
    exact ⟨h₁x, le_antisymm h₁y h₂y⟩

theorem lexXle_x_le {a b : Point} (h : lexXle a b) : a.x ≤ b.x := by
  rcases h with h | ⟨h, _⟩
  · exact le_of_lt h
  · exact le_of_eq h

theorem lexYle_y_le {a b : Point} (h : lexYle a b) : a.y ≤ b.y := by
  rcases h with h | ⟨h, _⟩
  · exact le_of_lt h
  · exact le_of_eq h

/-! ### Folded minima of pair distances -/

theorem minDistFold_le_of_mem {L : List (Point × Point)} {pq : Point × Point} (h : pq ∈ L) :
    minDistFold L ≤ ((dist pq.1 pq.2 : ℝ) : EReal) := by
  induction L with
  | nil => cases h
  | cons a t ih =>
      rcases List.mem_cons.mp h with rfl | h'
      · exact min_le_left _ _
      · exact le_trans (min_le_right _ _) (ih h')

theorem minDistFold_le_of_mem_pair {L : List (Point × Point)} {p q : Point}
    (h : (p, q) ∈ L) : minDistFold L ≤ ((dist p q : ℝ) : EReal) := by
  induction L with
  | nil => cases h
  | cons a t ih =>
      rcases List.mem_cons.mp h with rfl | h'
      · exact min_le_left _ _
      · exact le_trans (min_le_right _ _) (ih h')

theorem le_minDistFold {L : List (Point × Point)} {x : EReal}
    (h : ∀ pq ∈ L, x ≤ ((dist pq.1 pq.2 : ℝ) : EReal)) : x ≤ minDistFold L := by
  induction L with
  | nil => exact le_top
  | cons a t ih =>
      exact le_min (h a (List.mem_cons_self a t))
        (ih fun pq hpq => h pq (List.mem_cons_of_mem a hpq))

theorem minDistFold_top_or_realized (L : List (Point × Point)) :
    minDistFold L = ⊤ ∨ ∃ pq ∈ L, minDistFold L = ((dist pq.1 pq.2 : ℝ) : EReal) := by
  induction L with
  | nil => exact Or.inl rfl
  | cons a t ih =>
      have hfold : minDistFold (a :: t) =
          min ((dist a.1 a.2 : ℝ) : EReal) (minDistFold t) := rfl
      rcases ih with h | ⟨pq, hpq, h⟩
      · exact Or.inr ⟨a, List.mem_cons_self a t, by rw [hfold, h, min_eq_left le_top]⟩
      · rcases min_choice ((dist a.1 a.2 : ℝ) : EReal) (minDistFold t) with h' | h'
        · exact Or.inr ⟨a, List.mem_cons_self a t, by rw [hfold, h']⟩
        · exact Or.inr ⟨pq, List.mem_cons_of_mem a hpq, by rw [hfold, h', h]⟩

/-! ### `Pairable` -/

theorem Pairable.of_perm {l l' : List Point} (h : l.Perm l') {p q : Point}
    (hp : Pairable l p q) : Pairable l' p q := by
  unfold Pairable at *
  rwa [← Multiset.coe_eq_coe.mpr h]

theorem Pairable.mono {l l' : List Point}
    (h : (l : Multiset Point) ≤ (l' : Multiset Point)) {p q : Point}
    (hp : Pairable l p q) : Pairable l' p q := le_trans hp h

theorem Pairable.symm {l : List Point} {p q : Point} (h : Pairable l p q) :
    Pairable l q p := by
  unfold Pairable at *
  rwa [Multiset.cons_swap]

theorem Pairable.mem_left {l : List Point} {p q : Point} (h : Pairable l p q) : p ∈ l := by
  have hmem : p ∈ (p ::ₘ q ::ₘ 0) := Multiset.mem_cons_self p (q ::ₘ 0)
  have := Multiset.mem_of_le h hmem
  simpa using this

theorem Pairable.mem_right {l : List Point} {p q : Point} (h : Pairable l p q) : q ∈ l :=
  h.symm.mem_left

theorem Pairable.count_le {l : List Point} {p q : Point} (h : Pairable l p q) (v : Point) :
    Multiset.count v (p ::ₘ q ::ₘ 0) ≤ Multiset.count v (l : Multiset Point) :=
  Multiset.le_iff_count.mp h v

theorem pairable_of_counts {l : List Point} {p q : Point}
    (h : ∀ v : Point, Multiset.count v (p ::ₘ q ::ₘ 0) ≤ Multiset.count v (l : Multiset Point)) :
    Pairable l p q := Multiset.le_iff_count.mpr h

theorem count_pair (v p q : Point) :
    Multiset.count v (p ::ₘ q ::ₘ 0) =
      (if v = p then 1 else 0) + (if v = q then 1 else 0) := by
  by_cases h1 : v = p <;> by_cases h2 : v = q <;>
    simp [Multiset.count_cons, Multiset.count_singleton, h1, h2] <;> ring

theorem pairable_iff_count {l : List Point} {p q : Point} :
    Pairable l p q ↔
      (p = q ∧ 2 ≤ l.count p) ∨ (p ≠ q ∧ 1 ≤ l.count p ∧ 1 ≤ l.count q) := by
  unfold Pairable
  rw [Multiset.le_iff_count]
  constructor
  · intro h
    have hp := h p
    have hq := h q
    rw [count_pair, Multiset.coe_count] at hp
    rw [count_pair, Multiset.coe_count] at hq
    by_cases hpq : p = q
    · subst hpq
      rw [if_pos rfl] at hp
      exact Or.inl ⟨rfl, by omega⟩
    · rw [if_pos rfl, if_neg hpq] at hp
      rw [if_neg (Ne.symm hpq), if_pos rfl] at hq
      exact Or.inr ⟨hpq, by omega, by omega⟩
  · intro h v
    rw [count_pair, Multiset.coe_count]
    rcases h with ⟨rfl, h2⟩ | ⟨hpq, h1, h2⟩
    · by_cases hv : v = p
      · subst hv
        rw [if_pos rfl]
        omega
      · rw [if_neg hv]
        omega
    · by_cases hv1 : v = p
      · subst hv1
        rw [if_pos rfl, if_neg hpq]
        omega
      · by_cases hv2 : v = q
        · subst hv2
          rw [if_neg hv1, if_pos rfl]
          omega
        · rw [if_neg hv1, if_neg hv2]
          omega

theorem Pairable.filter {l : List Point} {p q : Point} (h : Pairable l p q)
    (f : Point → Bool) (hp : f p = true) (hq : f q = true) :
    Pairable (l.filter f) p q := by
  rw [pairable_iff_count] at h ⊢
  rcases h with ⟨rfl, h2⟩ | ⟨hpq, h1, h2⟩
  · exact Or.inl ⟨rfl, by rwa [List.count_filter hp]⟩
  · exact Or.inr ⟨hpq, by rwa [List.count_filter hp], by rwa [List.count_filter hq]⟩

theorem pairable_cons_self {l : List Point} {p q : Point} (h : q ∈ l) :
    Pairable (p :: l) p q := by
  unfold Pairable
  rw [← Multiset.cons_coe]
  exact Multiset.cons_le_cons p (by simpa using h)

theorem pairable_cons_of_pairable {l : List Point} {a p q : Point} (h : Pairable l p q) :
    Pairable (a :: l) p q := by
  refine h.mono ?_
  rw [← Multiset.cons_coe]
  exact Multiset.le_cons_self _ _

theorem count_cons_point (a v : Point) (l : List Point) :
    (a :: l).count v = l.count v + if v = a then 1 else 0 := by
  by_cases h : v = a <;> simp [List.count_cons, h]

theorem mem_of_one_le_count {l : List Point} {v : Point} (h : 1 ≤ l.count v) : v ∈ l := by
  rw [← List.count_pos_iff]
  omega

theorem pairable_cons_elim {l : List Point} {a p q : Point} (h : Pairable (a :: l) p q) :
    (a = p ∧ q ∈ l) ∨ (a = q ∧ p ∈ l) ∨ Pairable l p q := by
  rw [pairable_iff_count] at h
  by_cases hap : a = p
  · by_cases hql : q ∈ l
    · exact Or.inl ⟨hap, hql⟩
    · exfalso
      rcases h with ⟨hpq, h2⟩ | ⟨hpq, h1, h2⟩
      · -- p = q and two copies in a :: l, but a accounts for only one
        rw [count_cons_point, if_pos hap.symm] at h2
        exact hql (hpq ▸ mem_of_one_le_count (by omega))
      · -- q differs from p = a, so its copy lies in l
        rw [count_cons_point, if_neg (show ¬q = a by rw [hap]; exact fun h' => hpq h'.symm)] at h2
        exact hql (mem_of_one_le_count (by omega))
  · by_cases haq : a = q
    · by_cases hpl : p ∈ l
      · exact Or.inr (Or.inl ⟨haq, hpl⟩)
      · exfalso
        rcases h with ⟨hpq, h2⟩ | ⟨hpq, h1, h2⟩
        · exact hap (hpq ▸ haq)
        · rw [count_cons_point, if_neg (show ¬p = a from fun h' => hap h'.symm)] at h1
          exact hpl (mem_of_one_le_count (by omega))
    · right; right
      rw [pairable_iff_count]
      rcases h with ⟨hpq, h2⟩ | ⟨hpq, h1, h2⟩
      · rw [count_cons_point, if_neg (show ¬p = a from fun h' => hap h'.symm)] at h2
        exact Or.inl ⟨hpq, by omega⟩
      · rw [count_cons_point, if_neg (show ¬p = a from fun h' => hap h'.symm)] at h1
        rw [count_cons_point, if_neg (show ¬q = a from fun h' => haq h'.symm)] at h2
        exact Or.inr ⟨hpq, by omega, by omega⟩

/-! ### Bridging `pairList` and `Pairable` -/

theorem pairable_of_mem_pairList {l : List Point} {pq : Point × Point}
    (h : pq ∈ pairList l) : Pairable l pq.1 pq.2 := by
  induction l with
  | nil => cases h
  | cons a t ih =>
      rcases List.mem_append.mp h with h' | h'
      · rcases List.mem_map.mp h' with ⟨q, hq, rfl⟩
        exact pairable_cons_self hq
      · exact pairable_cons_of_pairable (ih h')

theorem mem_pairList_of_pairable {l : List Point} {p q : Point} (h : Pairable l p q) :
    (p, q) ∈ pairList l ∨ (q, p) ∈ pairList l := by
  induction l with
  | nil =>
      exfalso
      have := h.mem_left
      simp at this
  | cons a t ih =>
      rcases pairable_cons_elim h with ⟨rfl, hq⟩ | ⟨rfl, hp⟩ | h'
      · exact Or.inl (List.mem_append_left _ (List.mem_map.mpr ⟨q, hq, rfl⟩))
      · exact Or.inr (List.mem_append_left _ (List.mem_map.mpr ⟨p, hp, rfl⟩))
      · rcases ih h' with h'' | h''
        · exact Or.inl (List.mem_append_right _ h'')
        · exact Or.inr (List.mem_append_right _ h'')

theorem minPairDist_le_of_pairable {l : List Point} {p q : Point} (h : Pairable l p q) :
    minPairDist l ≤ ((dist p q : ℝ) : EReal) := by
  rcases mem_pairList_of_pairable h with h' | h'
  · exact minDistFold_le_of_mem_pair h'
  · have := minDistFold_le_of_mem_pair h'
    simpa [dist_comm q p] using this

theorem minPairDist_top_or_realized (l : List Point) :
    minPairDist l = ⊤ ∨
      ∃ p q, Pairable l p q ∧ minPairDist l = ((dist p q : ℝ) : EReal) := by
  rcases minDistFold_top_or_realized (pairList l) with h | ⟨pq, hpq, h⟩
  · exact Or.inl h
  · exact Or.inr ⟨pq.1, pq.2, pairable_of_mem_pairList hpq, h⟩

theorem minPairDist_perm {l l' : List Point} (h : l.Perm l') :
    minPairDist l = minPairDist l' := by
  have aux : ∀ {l₁ l₂ : List Point}, l₁.Perm l₂ → minPairDist l₁ ≤ minPairDist l₂ := by
    intro l₁ l₂ hperm
    rcases minPairDist_top_or_realized l₂ with h₂ | ⟨p, q, hpq, h₂⟩
    · exact h₂ ▸ le_top
    · exact h₂ ▸ minPairDist_le_of_pairable (hpq.of_perm hperm.symm)
  exact le_antisymm (aux h) (aux h.symm)

theorem minPairDist_ne_top {l : List Point} (h : 2 ≤ l.length) : minPairDist l ≠ ⊤ := by
  rcases l with _ | ⟨a, _ | ⟨b, t⟩⟩
  · simp at h
  · simp at h
  · have hpair : Pairable (a :: b :: t) a b :=
      pairable_cons_self (List.mem_cons_self b t)
    have hle := minPairDist_le_of_pairable hpair
    intro htop
    rw [htop] at hle
    exact absurd (top_le_iff.mp hle) (EReal.coe_ne_top _)

/-! ### The `bruteForce` scan as a fold over `pairList` -/

/-- `update` as a fold step over pairs. -/
noncomputable def updatePair (best : ClosestResult) (pq : Point × Point) : ClosestResult :=
  update pq.1 pq.2 best

theorem bfInner_eq_foldl (p : Point) (rest : List Point) (best : ClosestResult) :
    bfInner p rest best = (rest.map (fun q => (p, q))).foldl updatePair best := by
  induction rest generalizing best with
  | nil => rfl
  | cons q qs ih =>
      show bfInner p qs (updatePair best (p, q)) = _
      rw [ih]
      rfl

theorem bfOuter_eq_foldl (pts : List Point) (best : ClosestResult) :
    bfOuter pts best = (pairList pts).foldl updatePair best := by
  induction pts generalizing best with
  | nil => rfl
  | cons p ps ih =>
      show bfOuter ps (bfInner p ps best) = _
      rw [ih, bfInner_eq_foldl]
      show _ = ((ps.map fun q => (p, q)) ++ pairList ps).foldl updatePair best
      rw [List.foldl_append]

theorem update_dist_le (p q : Point) (b : ClosestResult) :
    (update p q b).dist ≤ b.dist := by
  unfold update
  split
  · exact le_of_lt (by assumption)
  · exact le_refl _

theorem update_le_dist (p q : Point) (b : ClosestResult) :
    (update p q b).dist ≤ ((dist p q : ℝ) : EReal) := by
  unfold update
  split
  · exact le_refl _
  · exact le_of_not_lt (by assumption)

theorem update_structure (p q : Point) (b : ClosestResult) :
    update p q b = b ∨
      (update p q b = ⟨p, q, ((dist p q : ℝ) : EReal)⟩ ∧
        ((dist p q : ℝ) : EReal) < b.dist) := by
  unfold update
  split
  · exact Or.inr ⟨rfl, by assumption⟩
  · exact Or.inl rfl

theorem updatePair_dist_le (b : ClosestResult) (pq : Point × Point) :
    (updatePair b pq).dist ≤ b.dist := update_dist_le pq.1 pq.2 b

theorem foldl_update_dist_le (l : List (Point × Point)) (b : ClosestResult) :
    (l.foldl updatePair b).dist ≤ b.dist := by
  induction l generalizing b with
  | nil => exact le_refl _
  | cons pq t ih =>
      exact le_trans (ih (updatePair b pq)) (updatePair_dist_le b pq)

theorem foldl_update_le_of_mem {l : List (Point × Point)} {pq : Point × Point}
    (h : pq ∈ l) (b : ClosestResult) :
    (l.foldl updatePair b).dist ≤ ((dist pq.1 pq.2 : ℝ) : EReal) := by
  induction l generalizing b with
  | nil => cases h
  | cons a t ih =>
      rcases List.mem_cons.mp h with rfl | h'
      · exact le_trans (foldl_update_dist_le t (updatePair b pq))
          (update_le_dist pq.1 pq.2 b)
      · exact ih h' (updatePair b a)

theorem foldl_update_realize (l : List (Point × Point)) (b : ClosestResult) :
    l.foldl updatePair b = b ∨
      ∃ pq ∈ l, l.foldl updatePair b = ⟨pq.1, pq.2, ((dist pq.1 pq.2 : ℝ) : EReal)⟩ ∧
        ((dist pq.1 pq.2 : ℝ) : EReal) < b.dist := by
  induction l generalizing b with
  | nil => exact Or.inl rfl
  | cons a t ih =>
      rw [List.foldl_cons]
      rcases update_structure a.1 a.2 b with hb' | ⟨hb', hup⟩
      · rw [show updatePair b a = b from hb']
        rcases ih b with h' | ⟨pq, hpq, hres, hlt⟩
        · exact Or.inl h'
        · exact Or.inr ⟨pq, List.mem_cons_of_mem a hpq, hres, hlt⟩
      · rcases ih (updatePair b a) with h' | ⟨pq, hpq, hres, hlt⟩
        · right
          exact ⟨a, List.mem_cons_self a t, by rw [h']; exact hb', hup⟩
        · right
          refine ⟨pq, List.mem_cons_of_mem a hpq, hres, lt_trans ?_ hup⟩
          rw [show updatePair b a = ⟨a.1, a.2, ((dist a.1 a.2 : ℝ) : EReal)⟩ from hb'] at hlt
          exact hlt

theorem foldl_update_first (l : List (Point × Point)) (b : ClosestResult) :
    l.foldl updatePair b = b ∨
      ∃ l₁ pq l₂, l = l₁ ++ pq :: l₂ ∧
        l.foldl updatePair b = ⟨pq.1, pq.2, ((dist pq.1 pq.2 : ℝ) : EReal)⟩ ∧
        ((dist pq.1 pq.2 : ℝ) : EReal) < b.dist ∧
        ∀ pq' ∈ l₁, ((dist pq.1 pq.2 : ℝ) : EReal) < ((dist pq'.1 pq'.2 : ℝ) : EReal) := by
  induction l generalizing b with
  | nil => exact Or.inl rfl
  | cons a t ih =>
      rw [List.foldl_cons]
      rcases update_structure a.1 a.2 b with hb' | ⟨hb', hup⟩
      · have hba : updatePair b a = b := hb'
        rw [hba]
        rcases ih b with h' | ⟨t₁, pq, t₂, hsplit, hres, hlt, hfirst⟩
        · exact Or.inl h'
        · right
          refine ⟨a :: t₁, pq, t₂, by rw [hsplit]; rfl, hres, hlt, ?_⟩
          intro pq' hpq'
          rcases List.mem_cons.mp hpq' with rfl | h''
          · have : b.dist ≤ ((dist pq'.1 pq'.2 : ℝ) : EReal) := by
              have := update_le_dist pq'.1 pq'.2 b
              rw [show update pq'.1 pq'.2 b = b from hb'] at this
              exact this
            exact lt_of_lt_of_le hlt this
          · exact hfirst pq' h''
      · have hba : updatePair b a = ⟨a.1, a.2, ((dist a.1 a.2 : ℝ) : EReal)⟩ := hb'
        right
        rcases ih (updatePair b a) with h' | ⟨t₁, pq, t₂, hsplit, hres, hlt, hfirst⟩
        · refine ⟨[], a, t, rfl, by rw [h', hba], hup, by simp⟩
        · refine ⟨a :: t₁, pq, t₂, by rw [hsplit]; rfl, hres, ?_, ?_⟩
          · rw [hba] at hlt
            exact lt_trans hlt hup
          · intro pq' hpq'
            rcases List.mem_cons.mp hpq' with rfl | h''
            · rw [hba] at hlt
              exact hlt
            · exact hfirst pq' h''

/-! ### The strip scan -/

theorem coeQ_le_coeQ {a b : ℚ} (h : a ≤ b) : (((a : ℝ)) : EReal) ≤ ((b : ℝ) : EReal) :=
  EReal.coe_le_coe_iff.mpr (by exact_mod_cast h)

/-- The y-difference guarding the `break` is a lower bound on the distance. -/
theorem ydiff_le_dist (p q : Point) :
    ((((q.y - p.y : ℚ) : ℝ) : EReal)) ≤ ((dist p q : ℝ) : EReal) := by
  rw [EReal.coe_le_coe_iff]
  push_cast
  calc (q.y : ℝ) - p.y ≤ |(q.y : ℝ) - p.y| := le_abs_self _
    _ ≤ dist p q := abs_dy_le_dist p q

theorem stripInner_dist_le (p : Point) (rest : List Point) (best : ClosestResult) :
    (stripInner p rest best).dist ≤ best.dist := by
  induction rest generalizing best with
  | nil => exact le_refl _
  | cons q qs ih =>
      simp only [stripInner]
      split
      · exact le_refl _
      · exact le_trans (ih (update p q best)) (update_dist_le p q best)

theorem stripInner_le_of_mem (p : Point) {rest : List Point}
    (hsort : rest.Pairwise (fun a b => a.y ≤ b.y)) {q : Point} (hq : q ∈ rest)
    (best : ClosestResult) :
    (stripInner p rest best).dist ≤ ((dist p q : ℝ) : EReal) := by
  induction rest generalizing best with
  | nil => cases hq
  | cons q0 qs ih =>
      have hsort' : qs.Pairwise (fun a b => a.y ≤ b.y) := hsort.of_cons
      simp only [stripInner]
      split
      · -- the scan breaks at `q0`: the current best is at most every later y-gap
        rename_i hbreak
        rcases List.mem_cons.mp hq with rfl | hq'
        · exact le_trans hbreak (ydiff_le_dist p q)
        · have hy : q0.y ≤ q.y := List.rel_of_pairwise_cons hsort hq'
          have hgap : ((((q0.y - p.y : ℚ) : ℝ)) : EReal) ≤ (((q.y - p.y : ℚ) : ℝ) : EReal) :=
            coeQ_le_coeQ (by linarith)
          exact le_trans hbreak (le_trans hgap (ydiff_le_dist p q))
      · rcases List.mem_cons.mp hq with rfl | hq'
        · exact le_trans (stripInner_dist_le p qs (update p q best))
            (update_le_dist p q best)
        · exact ih hsort' hq' (update p q0 best)

theorem stripInner_structure (p : Point) (rest : List Point) (best : ClosestResult) :
    stripInner p rest best = best ∨
      ∃ q ∈ rest, stripInner p rest best = ⟨p, q, ((dist p q : ℝ) : EReal)⟩ ∧
        ((dist p q : ℝ) : EReal) < best.dist := by
  induction rest generalizing best with
  | nil => exact Or.inl rfl
  | cons q0 qs ih =>
      simp only [stripInner]
      split
      · exact Or.inl rfl
      · rcases update_structure p q0 best with hu | ⟨hu, hlt⟩
        · rw [hu]
          rcases ih best with h | ⟨q, hq, h, hlt'⟩
          · exact Or.inl h
          · exact Or.inr ⟨q, List.mem_cons_of_mem q0 hq, h, hlt'⟩
        · rcases ih (update p q0 best) with h | ⟨q, hq, h, hlt'⟩
          · exact Or.inr ⟨q0, List.mem_cons_self q0 qs, by rw [h, hu], hlt⟩
          · refine Or.inr ⟨q, List.mem_cons_of_mem q0 hq, h, ?_⟩
            rw [hu] at hlt'
            exact lt_trans hlt' hlt

theorem stripOuter_dist_le (l : List Point) (best : ClosestResult) :
    (stripOuter l best).dist ≤ best.dist := by
  induction l generalizing best with
  | nil => exact le_refl _
  | cons p ps ih =>
      exact le_trans (ih (stripInner p ps best)) (stripInner_dist_le p ps best)

theorem stripOuter_le_of_mem {l : List Point}
    (hsort : l.Pairwise (fun a b => a.y ≤ b.y)) {p q : Point}
    (hpq : (p, q) ∈ pairList l) (best : ClosestResult) :
    (stripOuter l best).dist ≤ ((dist p q : ℝ) : EReal) := by
  induction l generalizing best with
  | nil => cases hpq
  | cons a t ih =>
      have hsort' : t.Pairwise (fun x y => x.y ≤ y.y) := hsort.of_cons
      rcases List.mem_append.mp hpq with h' | h'
      · rcases List.mem_map.mp h' with ⟨q', hq', heq⟩
        have hpa : a = p := congrArg Prod.fst heq
        have hqq : q' = q := congrArg Prod.snd heq
        subst hpa
        subst hqq
        exact le_trans (stripOuter_dist_le t (stripInner a t best))
          (stripInner_le_of_mem a hsort' hq' best)
      · exact ih hsort' h' (stripInner a t best)

theorem stripOuter_structure (l : List Point) (best : ClosestResult) :
    stripOuter l best = best ∨
      ∃ p q, (p, q) ∈ pairList l ∧
        stripOuter l best = ⟨p, q, ((dist p q : ℝ) : EReal)⟩ ∧
        ((dist p q : ℝ) : EReal) < best.dist := by
  induction l generalizing best with
  | nil => exact Or.inl rfl
  | cons a t ih =>
      have hstep : stripOuter (a :: t) best = stripOuter t (stripInner a t best) := rfl
      rw [hstep]
      rcases stripInner_structure a t best with hu | ⟨q0, hq0, hu, hlt⟩
      · rw [hu]
        rcases ih best with h | ⟨p, q, hpq, h, hlt'⟩
        · exact Or.inl h
        · exact Or.inr ⟨p, q, List.mem_append_right _ hpq, h, hlt'⟩
      · rcases ih (stripInner a t best) with h | ⟨p, q, hpq, h, hlt'⟩
        · refine Or.inr ⟨a, q0, List.mem_append_left _ (List.mem_map.mpr ⟨q0, hq0, rfl⟩),
            ?_, hlt⟩
          rw [h, hu]
        · refine Or.inr ⟨p, q, List.mem_append_right _ hpq, h, ?_⟩
          rw [hu] at hlt'
          exact lt_trans hlt' hlt

/-! ### Characterization of `closestInStrip` -/

theorem closestInStrip_dist_le (strip : List Point) (delta : EReal) :
    (closestInStrip strip delta).dist ≤ delta :=
  stripOuter_dist_le strip ⟨origin, origin, delta⟩

theorem closestInStrip_le_of_mem {strip : List Point}
    (hsort : strip.Pairwise (fun a b => a.y ≤ b.y)) {p q : Point}
    (hpq : (p, q) ∈ pairList strip) (delta : EReal) :
    (closestInStrip strip delta).dist ≤ ((dist p q : ℝ) : EReal) :=
  stripOuter_le_of_mem hsort hpq ⟨origin, origin, delta⟩

theorem closestInStrip_le_of_pairable {strip : List Point}
    (hsort : strip.Pairwise (fun a b => a.y ≤ b.y)) {p q : Point}
    (hpq : Pairable strip p q) (delta : EReal) :
    (closestInStrip strip delta).dist ≤ ((dist p q : ℝ) : EReal) := by
  rcases mem_pairList_of_pairable hpq with h' | h'
  · exact closestInStrip_le_of_mem hsort h' delta
  · have := closestInStrip_le_of_mem hsort h' delta
    rwa [dist_comm q p] at this

theorem closestInStrip_structure (strip : List Point) (delta : EReal) :
    closestInStrip strip delta = ⟨origin, origin, delta⟩ ∨
      ∃ p q, Pairable strip p q ∧
        closestInStrip strip delta = ⟨p, q, ((dist p q : ℝ) : EReal)⟩ ∧
        ((dist p q : ℝ) : EReal) < delta := by
  rcases stripOuter_structure strip ⟨origin, origin, delta⟩ with h | ⟨p, q, hpq, h, hlt⟩
  · exact Or.inl h
  · exact Or.inr ⟨p, q, pairable_of_mem_pairList hpq, h, hlt⟩

/-! ### Characterization of `bruteForce` -/

theorem bruteForce_eq_foldl (pts : List Point) :
    bruteForce pts = (pairList pts).foldl updatePair ⟨origin, origin, ⊤⟩ :=
  bfOuter_eq_foldl pts _

theorem bruteForce_dist_eq (pts : List Point) :
    (bruteForce pts).dist = minPairDist pts := by
  rw [bruteForce_eq_foldl]
  apply le_antisymm
  · apply le_minDistFold
    intro pq hpq
    exact foldl_update_le_of_mem hpq _
  · rcases foldl_update_realize (pairList pts) ⟨origin, origin, ⊤⟩ with h | ⟨pq, hpq, hres, _⟩
    · rw [h]
      exact le_top
    · rw [hres]
      exact minDistFold_le_of_mem hpq

theorem bruteForce_structure (pts : List Point) :
    bruteForce pts = ⟨origin, origin, ⊤⟩ ∨
      ∃ p q, Pairable pts p q ∧
        bruteForce pts = ⟨p, q, ((dist p q : ℝ) : EReal)⟩ := by
  rw [bruteForce_eq_foldl]
  rcases foldl_update_realize (pairList pts) ⟨origin, origin, ⊤⟩ with h | ⟨pq, hpq, hres, _⟩
  · exact Or.inl h
  · exact Or.inr ⟨pq.1, pq.2, pairable_of_mem_pairList hpq, hres⟩

/-! ### The partition of `Py` is the pure coordinate test -/

theorem routeLeft_eq_lex (midPoint p : Point) (xlEmpty addrNe : Bool) :
    routeLeft midPoint p xlEmpty addrNe = decide (lexXle p midPoint) := by
  unfold routeLeft lexXle
  by_cases hx : p.x < midPoint.x
  · simp [hx]
  · by_cases hxe : p.x = midPoint.x
    · by_cases hy : p.y ≤ midPoint.y
      · simp [hx, hxe, hy, le_of_eq hxe]
      · simp [hx, hxe, hy]
    · simp [hx, hxe]

theorem partitionY_fst (Py : List Point) (midPoint : Point) (xlEmpty : Bool) :
    (partitionY Py midPoint xlEmpty).1 =
      Py.filter (fun p => decide (lexXle p midPoint)) := by
  unfold partitionY
  simp only [routeLeft_eq_lex]

theorem partitionY_snd (Py : List Point) (midPoint : Point) (xlEmpty : Bool) :
    (partitionY Py midPoint xlEmpty).2 =
      Py.filter (fun p => !(decide (lexXle p midPoint))) := by
  unfold partitionY
  simp only [routeLeft_eq_lex]

/-! ### Sub-multiset transfers along `take`/`drop`/`filter` -/

theorem pairable_of_sublist {l₁ l₂ : List Point} (h : l₁.Sublist l₂) {p q : Point}
    (hpq : Pairable l₁ p q) : Pairable l₂ p q :=
  hpq.mono (Multiset.coe_le.mpr h.subperm)

theorem sorted_take_le {Px : List Point} (hsx : Px.Pairwise lexXle) {mid : ℕ}
    (hmid : mid < Px.length) :
    ∀ v ∈ Px.take mid, lexXle v (Px.get ⟨mid, hmid⟩) := by
  intro v hv
  have hsx' : (Px.take mid ++ Px.drop mid).Pairwise lexXle := by
    rw [List.take_append_drop]
    exact hsx
  rcases List.pairwise_append.mp hsx' with ⟨_, _, hcross⟩
  refine hcross v hv (Px.get ⟨mid, hmid⟩) ?_
  rw [List.drop_eq_getElem_cons hmid]
  exact List.mem_cons_self _ _

theorem sorted_drop_ge {Px : List Point} (hsx : Px.Pairwise lexXle) {mid : ℕ}
    (hmid : mid < Px.length) :
    ∀ v ∈ Px.drop mid, lexXle (Px.get ⟨mid, hmid⟩) v := by
  intro v hv
  have hdrop : (Px.drop mid).Pairwise lexXle := hsx.sublist (List.drop_sublist mid Px)
  rw [List.drop_eq_getElem_cons hmid] at hdrop hv
  rcases List.mem_cons.mp hv with rfl | hv'
  · exact lexXle_refl _
  · exact List.rel_of_pairwise_cons hdrop hv'

theorem count_take_eq {Px : List Point} (hsx : Px.Pairwise lexXle) {mid : ℕ}
    (hmid : mid < Px.length) {v : Point} (hv : ¬ lexXle (Px.get ⟨mid, hmid⟩) v) :
    (Px.take mid).count v = Px.count v := by
  have hzero : (Px.drop mid).count v = 0 := by
    rw [List.count_eq_zero]
    intro hmem
    exact hv (sorted_drop_ge hsx hmid v hmem)
  have := List.count_append v (Px.take mid) (Px.drop mid)
  rw [List.take_append_drop] at this
  omega

theorem count_drop_eq {Px : List Point} (hsx : Px.Pairwise lexXle) {mid : ℕ}
    (hmid : mid < Px.length) {v : Point} (hv : ¬ lexXle v (Px.get ⟨mid, hmid⟩)) :
    (Px.drop mid).count v = Px.count v := by
  have hzero : (Px.take mid).count v = 0 := by
    rw [List.count_eq_zero]
    intro hmem
    exact hv (sorted_take_le hsx hmid v hmem)
  have := List.count_append v (Px.take mid) (Px.drop mid)
  rw [List.take_append_drop] at this
  omega

theorem pairable_take {Px : List Point} (hsx : Px.Pairwise lexXle) {mid : ℕ}
    (hmid : mid < Px.length) {p q : Point} (hpq : Pairable Px p q)
    (hp : ¬ lexXle (Px.get ⟨mid, hmid⟩) p) (hq : ¬ lexXle (Px.get ⟨mid, hmid⟩) q) :
    Pairable (Px.take mid) p q := by
  rw [pairable_iff_count] at hpq ⊢
  rcases hpq with ⟨rfl, h2⟩ | ⟨hne, h1, h2⟩
  · exact Or.inl ⟨rfl, by rwa [count_take_eq hsx hmid hp]⟩
  · exact Or.inr ⟨hne, by rwa [count_take_eq hsx hmid hp],
      by rwa [count_take_eq hsx hmid hq]⟩

theorem pairable_drop {Px : List Point} (hsx : Px.Pairwise lexXle) {mid : ℕ}
    (hmid : mid < Px.length) {p q : Point} (hpq : Pairable Px p q)
    (hp : ¬ lexXle p (Px.get ⟨mid, hmid⟩)) (hq : ¬ lexXle q (Px.get ⟨mid, hmid⟩)) :
    Pairable (Px.drop mid) p q := by
  rw [pairable_iff_count] at hpq ⊢
  rcases hpq with ⟨rfl, h2⟩ | ⟨hne, h1, h2⟩
  · exact Or.inl ⟨rfl, by rwa [count_drop_eq hsx hmid hp]⟩
  · exact Or.inr ⟨hne, by rwa [count_drop_eq hsx hmid hp],
      by rwa [count_drop_eq hsx hmid hq]⟩

/-! ### The `combine` step -/

theorem bestOf_dist_le_left (lB rB : ClosestResult) : (bestOf lB rB).dist ≤ lB.dist := by
  unfold bestOf
  split
  · exact le_refl _
  · exact le_of_not_lt (by assumption)

theorem bestOf_dist_le_right (lB rB : ClosestResult) : (bestOf lB rB).dist ≤ rB.dist := by
  unfold bestOf
  split
  · exact le_of_lt (by assumption)
  · exact le_refl _

theorem bestOf_eq_or (lB rB : ClosestResult) : bestOf lB rB = lB ∨ bestOf lB rB = rB := by
  unfold bestOf
  split
  · exact Or.inl rfl
  · exact Or.inr rfl

theorem combine_eq (Py : List Point) (midPoint : Point) (lB rB : ClosestResult) :
    combine Py midPoint lB rB =
      if (closestInStrip (stripOf Py midPoint (bestOf lB rB).dist) (bestOf lB rB).dist).dist <
          (bestOf lB rB).dist
      then closestInStrip (stripOf Py midPoint (bestOf lB rB).dist) (bestOf lB rB).dist
      else bestOf lB rB := rfl

theorem combine_dist_le (Py : List Point) (midPoint : Point) (lB rB : ClosestResult) :
    (combine Py midPoint lB rB).dist ≤ (bestOf lB rB).dist := by
  rw [combine_eq]
  split
  · exact le_of_lt (by assumption)
  · exact le_refl _

theorem combine_structure (Py : List Point) (midPoint : Point) (lB rB : ClosestResult) :
    combine Py midPoint lB rB = bestOf lB rB ∨
      ∃ p q, Pairable Py p q ∧
        combine Py midPoint lB rB = ⟨p, q, ((dist p q : ℝ) : EReal)⟩ := by
  rw [combine_eq]
  split
  · rename_i hlt
    rcases closestInStrip_structure (stripOf Py midPoint (bestOf lB rB).dist)
        (bestOf lB rB).dist with hs | ⟨p, q, hpq, hs, _⟩
    · exfalso
      rw [hs] at hlt
      exact lt_irrefl _ hlt
    · exact Or.inr ⟨p, q, pairable_of_sublist (List.filter_sublist Py) hpq, hs⟩
  · exact Or.inl rfl

/-! ### Unfolding `closestRec` -/

theorem closestRec_base {Px Py : List Point} (h : Px.length ≤ 3) :
    closestRec Px Py = bruteForce Px := by
  rw [closestRec]
  exact dif_pos h

theorem closestRec_rec {Px Py : List Point} (h : ¬ Px.length ≤ 3)
    (hmid : Px.length / 2 < Px.length) :
    closestRec Px Py =
      combine Py (Px.get ⟨Px.length / 2, hmid⟩)
        (closestRec (Px.take (Px.length / 2))
          (partitionY Py (Px.get ⟨Px.length / 2, hmid⟩)
            (Px.take (Px.length / 2)).isEmpty).1)
        (closestRec (Px.drop (Px.length / 2))
          (partitionY Py (Px.get ⟨Px.length / 2, hmid⟩)
            (Px.take (Px.length / 2)).isEmpty).2) := by
  rw [closestRec]
  rw [dif_neg h]

/-! ### Soundness structure of `closestRec` -/

theorem closestRec_structure :
    ∀ (n : ℕ) (Px Py : List Point), Px.length ≤ n →
      closestRec Px Py = ⟨origin, origin, ⊤⟩ ∨
        ∃ p q, (Pairable Px p q ∨ Pairable Py p q) ∧
          closestRec Px Py = ⟨p, q, ((dist p q : ℝ) : EReal)⟩ := by
  intro n
  induction n with
  | zero =>
      intro Px Py hlen
      rw [closestRec_base (by omega)]
      rcases bruteForce_structure Px with h | ⟨p, q, hpq, h⟩
      · exact Or.inl h
      · exact Or.inr ⟨p, q, Or.inl hpq, h⟩
  | succ n ih =>
      intro Px Py hlen
      by_cases h3 : Px.length ≤ 3
      · rw [closestRec_base h3]
        rcases bruteForce_structure Px with h | ⟨p, q, hpq, h⟩
        · exact Or.inl h
        · exact Or.inr ⟨p, q, Or.inl hpq, h⟩
      · have hmid : Px.length / 2 < Px.length := by omega
        rw [closestRec_rec h3 hmid]
        set m := Px.get ⟨Px.length / 2, hmid⟩ with hm
        set XL := Px.take (Px.length / 2) with hXL
        set XR := Px.drop (Px.length / 2) with hXR
        set YL := (partitionY Py m XL.isEmpty).1 with hYL
        set YR := (partitionY Py m XL.isEmpty).2 with hYR
        have hXLlen : XL.length ≤ n := by
          rw [hXL]
          simp only [List.length_take]
          omega
        have hXRlen : XR.length ≤ n := by
          rw [hXR]
          simp only [List.length_drop]
          omega
        rcases combine_structure Py m (closestRec XL YL) (closestRec XR YR) with
          hc | ⟨p, q, hpq, hc⟩
        · rcases bestOf_eq_or (closestRec XL YL) (closestRec XR YR) with hb | hb
          · rw [hc, hb]
            rcases ih XL YL hXLlen with h | ⟨p, q, hpq, h⟩
            · exact Or.inl h
            · refine Or.inr ⟨p, q, ?_, h⟩
              rcases hpq with hpq | hpq
              · exact Or.inl (pairable_of_sublist (List.take_sublist _ _) hpq)
              · refine Or.inr (pairable_of_sublist ?_ hpq)
                rw [hYL, partitionY_fst]
                exact List.filter_sublist Py
          · rw [hc, hb]
            rcases ih XR YR hXRlen with h | ⟨p, q, hpq, h⟩
            · exact Or.inl h
            · refine Or.inr ⟨p, q, ?_, h⟩
              rcases hpq with hpq | hpq
              · exact Or.inl (pairable_of_sublist (List.drop_sublist _ _) hpq)
              · refine Or.inr (pairable_of_sublist ?_ hpq)
                rw [hYR, partitionY_snd]
                exact List.filter_sublist Py
        · exact Or.inr ⟨p, q, Or.inr hpq, hc⟩

/-! ### Completeness of `closestRec` -/

theorem closestRec_le_aux :
    ∀ (n : ℕ) (Px Py : List Point), Px.length ≤ n →
      Px.Pairwise lexXle → Py.Pairwise (fun a b => a.y ≤ b.y) →
      ∀ p q : Point, Pairable Px p q → Pairable Py p q → lexXle p q →
        (closestRec Px Py).dist ≤ ((dist p q : ℝ) : EReal) := by
  intro n
  induction n with
  | zero =>
      intro Px Py hlen _ _ p q hpx _ _
      exfalso
      have hmem := hpx.mem_left
      rcases Px with _ | ⟨a, t⟩
      · simp at hmem
      · simp at hlen
  | succ n ih =>
      intro Px Py hlen hsx hsy p q hpx hpy hord
      by_cases h3 : Px.length ≤ 3
      · rw [closestRec_base h3, bruteForce_dist_eq]
        exact minPairDist_le_of_pairable hpx
      · have hmid : Px.length / 2 < Px.length := by omega
        rw [closestRec_rec h3 hmid]
        set m := Px.get ⟨Px.length / 2, hmid⟩ with hm
        set XL := Px.take (Px.length / 2) with hXL
        set XR := Px.drop (Px.length / 2) with hXR
        set YL := (partitionY Py m XL.isEmpty).1 with hYL
        set YR := (partitionY Py m XL.isEmpty).2 with hYR
        have hXLlen : XL.length ≤ n := by
          rw [hXL]
          simp only [List.length_take]
          omega
        have hXRlen : XR.length ≤ n := by
          rw [hXR]
          simp only [List.length_drop]
          omega
        have hsxXL : XL.Pairwise lexXle := hsx.sublist (List.take_sublist _ _)
        have hsxXR : XR.Pairwise lexXle := hsx.sublist (List.drop_sublist _ _)
        have hsyYL : YL.Pairwise (fun a b => a.y ≤ b.y) := by
          rw [hYL, partitionY_fst]
          exact hsy.filter _
        have hsyYR : YR.Pairwise (fun a b => a.y ≤ b.y) := by
          rw [hYR, partitionY_snd]
          exact hsy.filter _
        by_cases hqm : lexXle m q
        · by_cases hpm : lexXle p m
          · -- `p ≤lex m ≤lex q`: the pair straddles the split; the strip catches it
            by_cases hd : ((dist p q : ℝ) : EReal) <
                (bestOf (closestRec XL YL) (closestRec XR YR)).dist
            · have hpxle : p.x ≤ m.x := lexXle_x_le hpm
              have hmxle : m.x ≤ q.x := lexXle_x_le hqm
              have hpqx : p.x ≤ q.x := le_trans hpxle hmxle
              have habs_p : (|p.x - m.x| : ℚ) ≤ q.x - p.x := by
                rw [abs_sub_comm, abs_of_nonneg (by linarith)]
                linarith
              have habs_q : (|q.x - m.x| : ℚ) ≤ q.x - p.x := by
                rw [abs_of_nonneg (by linarith)]
                linarith
              have hdx : ((q.x - p.x : ℚ) : ℝ) ≤ dist p q := by
                push_cast
                calc (q.x : ℝ) - p.x ≤ |(q.x : ℝ) - p.x| := le_abs_self _
                  _ ≤ dist p q := abs_dx_le_dist p q
              have hp_cond :
                  ((((|p.x - m.x| : ℚ) : ℝ) : EReal) <
                    (bestOf (closestRec XL YL) (closestRec XR YR)).dist) := by
                refine lt_of_le_of_lt ?_ hd
                rw [EReal.coe_le_coe_iff]
                exact le_trans (by exact_mod_cast habs_p) hdx
              have hq_cond :
                  ((((|q.x - m.x| : ℚ) : ℝ) : EReal) <
                    (bestOf (closestRec XL YL) (closestRec XR YR)).dist) := by
                refine lt_of_le_of_lt ?_ hd
                rw [EReal.coe_le_coe_iff]
                exact le_trans (by exact_mod_cast habs_q) hdx
              have hstrip_pair : Pairable
                  (stripOf Py m (bestOf (closestRec XL YL) (closestRec XR YR)).dist) p q :=
                hpy.filter _ (decide_eq_true hp_cond) (decide_eq_true hq_cond)
              have hstrip_sorted : (stripOf Py m
                  (bestOf (closestRec XL YL) (closestRec XR YR)).dist).Pairwise
                    (fun a b => a.y ≤ b.y) := hsy.filter _
              have hsb := closestInStrip_le_of_pairable hstrip_sorted hstrip_pair
                (bestOf (closestRec XL YL) (closestRec XR YR)).dist
              rw [combine_eq]
              split
              · exact hsb
              · rename_i hnot
                exact le_trans (le_of_not_lt hnot) hsb
            · exact le_trans (combine_dist_le _ _ _ _) (le_of_not_lt hd)
          · -- `m <lex p ≤lex q`: the pair lives in the right half
            have hqm' : ¬ lexXle q m := fun h => hpm (lexXle_trans hord h)
            have hXRpair : Pairable XR p q := pairable_drop hsx hmid hpx hpm hqm'
            have hYRpair : Pairable YR p q := by
              rw [hYR, partitionY_snd]
              refine hpy.filter _ ?_ ?_
              · simp [hpm]
              · simp [hqm']
            refine le_trans (combine_dist_le _ _ _ _)
              (le_trans (bestOf_dist_le_right _ _) ?_)
            exact ih XR YR hXRlen hsxXR hsyYR p q hXRpair hYRpair hord
        · -- `p ≤lex q <lex m`: the pair lives in the left half
          have hpm' : ¬ lexXle m p := fun h => hqm (lexXle_trans h hord)
          have hple : lexXle p m := (lexXle_total p m).resolve_right
            (fun h => hpm' h)
          have hqle : lexXle q m := (lexXle_total q m).resolve_right
            (fun h => hqm h)
          have hXLpair : Pairable XL p q := pairable_take hsx hmid hpx hpm' hqm
          have hYLpair : Pairable YL p q := by
            rw [hYL, partitionY_fst]
            exact hpy.filter _ (decide_eq_true hple) (decide_eq_true hqle)
          refine le_trans (combine_dist_le _ _ _ _)
            (le_trans (bestOf_dist_le_left _ _) ?_)
          exact ih XL YL hXLlen hsxXL hsyYL p q hXLpair hYLpair hord

theorem closestRec_le_of_pairable {Px Py : List Point}
    (hsx : Px.Pairwise lexXle) (hsy : Py.Pairwise (fun a b => a.y ≤ b.y))
    {p q : Point} (hpx : Pairable Px p q) (hpy : Pairable Py p q) :
    (closestRec Px Py).dist ≤ ((dist p q : ℝ) : EReal) := by
  rcases lexXle_total p q with hord | hord
  · exact closestRec_le_aux Px.length Px Py (le_refl _) hsx hsy p q hpx hpy hord
  · have := closestRec_le_aux Px.length Px Py (le_refl _) hsx hsy q p
      hpx.symm hpy.symm hord
    rwa [dist_comm q p] at this

/-! ### The sorts of `closestPair` -/

theorem lexYle_refl (a : Point) : lexYle a a := Or.inr ⟨rfl, le_refl _⟩

theorem lexYle_trans {a b c : Point} (h₁ : lexYle a b) (h₂ : lexYle b c) : lexYle a c := by
  rcases h₁ with h₁ | ⟨h₁y, h₁x⟩ <;> rcases h₂ with h₂ | ⟨h₂y, h₂x⟩
  · exact Or.inl (lt_trans h₁ h₂)
  · exact Or.inl (h₂y ▸ h₁)
  · exact Or.inl (h₁y ▸ h₂)
  · exact Or.inr ⟨h₁y.trans h₂y, h₁x.trans h₂x⟩

theorem lexYle_total (a b : Point) : lexYle a b ∨ lexYle b a := by
  unfold lexYle
  rcases lt_trichotomy a.y b.y with h | h | h
  · exact Or.inl (Or.inl h)
  · rcases le_total a.x b.x with h' | h'
    · exact Or.inl (Or.inr ⟨h, h'⟩)
    · exact Or.inr (Or.inr ⟨h.symm, h'⟩)
  · exact Or.inr (Or.inl h)

theorem not_cmpX_iff (a b : Point) : (!(cmpX b a)) = true ↔ lexXle a b := by
  unfold cmpX lexXle
  by_cases hx : b.x = a.x
  · rw [if_neg (not_not_intro hx)]
    simp only [Bool.not_eq_true', decide_eq_false_iff_not, not_lt, hx]
    constructor
    · intro hy
      exact Or.inr ⟨trivial, hy⟩
    · rintro (h | ⟨_, hy⟩)
      · exact absurd h (lt_irrefl _)
      · exact hy
  · rw [if_pos hx]
    simp only [Bool.not_eq_true', decide_eq_false_iff_not, not_lt]
    constructor
    · intro hle
      exact Or.inl (lt_of_le_of_ne hle (fun h' => hx h'.symm))
    · rintro (h | ⟨hax, _⟩)
      · exact le_of_lt h
      · exact absurd hax.symm hx

theorem not_cmpY_iff (a b : Point) : (!(cmpY b a)) = true ↔ lexYle a b := by
  unfold cmpY lexYle
  by_cases hy : b.y = a.y
  · rw [if_neg (not_not_intro hy)]
    simp only [Bool.not_eq_true', decide_eq_false_iff_not, not_lt, hy]
    constructor
    · intro hx
      exact Or.inr ⟨trivial, hx⟩
    · rintro (h | ⟨_, hx⟩)
      · exact absurd h (lt_irrefl _)
      · exact hx
  · rw [if_pos hy]
    simp only [Bool.not_eq_true', decide_eq_false_iff_not, not_lt]
    constructor
    · intro hle
      exact Or.inl (lt_of_le_of_ne hle (fun h' => hy h'.symm))
    · rintro (h | ⟨hay, _⟩)
      · exact le_of_lt h
      · exact absurd hay.symm hy

theorem sortBy_perm (lt : Point → Point → Bool) (pts : List Point) :
    (sortBy lt pts).Perm pts :=
  List.mergeSort_perm pts _

theorem sortX_sorted (pts : List Point) : (sortBy cmpX pts).Pairwise lexXle := by
  have h := @List.sorted_mergeSort Point (fun a b => !(cmpX b a))
    (fun a b c hab hbc => (not_cmpX_iff a c).mpr
      (lexXle_trans ((not_cmpX_iff a b).mp hab) ((not_cmpX_iff b c).mp hbc)))
    (fun a b => by
      rcases lexXle_total a b with h | h
      · simp [(not_cmpX_iff a b).mpr h]
      · simp [(not_cmpX_iff b a).mpr h])
    pts
  exact h.imp (fun hab => (not_cmpX_iff _ _).mp hab)

theorem sortY_sorted (pts : List Point) : (sortBy cmpY pts).Pairwise lexYle := by
  have h := @List.sorted_mergeSort Point (fun a b => !(cmpY b a))
    (fun a b c hab hbc => (not_cmpY_iff a c).mpr
      (lexYle_trans ((not_cmpY_iff a b).mp hab) ((not_cmpY_iff b c).mp hbc)))
    (fun a b => by
      rcases lexYle_total a b with h | h
      · simp [(not_cmpY_iff a b).mpr h]
      · simp [(not_cmpY_iff b a).mpr h])
    pts
  exact h.imp (fun hab => (not_cmpY_iff _ _).mp hab)

theorem sortY_sorted_y (pts : List Point) :
    (sortBy cmpY pts).Pairwise (fun a b => a.y ≤ b.y) :=
  (sortY_sorted pts).imp (fun h => lexYle_y_le h)

/-! ### Characterization of `closestPair` -/

theorem closestPair_small {pts : List Point} (h : pts.length < 2) :
    closestPair pts = ⟨origin, origin, ⊤⟩ := by
  unfold closestPair
  rw [if_pos h]

theorem closestPair_dist_eq_minPairDist {pts : List Point} (h : 2 ≤ pts.length) :
    (closestPair pts).dist = minPairDist pts := by
  unfold closestPair
  rw [if_neg (by omega)]
  have hpx := sortBy_perm cmpX pts
  have hpy := sortBy_perm cmpY pts
  apply le_antisymm
  · rcases minPairDist_top_or_realized pts with htop | ⟨p, q, hpq, hmin⟩
    · rw [htop]
      exact le_top
    · rw [hmin]
      exact closestRec_le_of_pairable (sortX_sorted pts) (sortY_sorted_y pts)
        (hpq.of_perm hpx.symm) (hpq.of_perm hpy.symm)
  · rcases closestRec_structure (sortBy cmpX pts).length (sortBy cmpX pts)
        (sortBy cmpY pts) (le_refl _) with hs | ⟨p, q, hpq, hs⟩
    · rw [hs]
      exact le_top
    · rw [hs]
      have hpair : Pairable pts p q := by
        rcases hpq with h' | h'
        · exact h'.of_perm hpx
        · exact h'.of_perm hpy
      exact minPairDist_le_of_pairable hpair

theorem closestPair_realized {pts : List Point} (h : 2 ≤ pts.length) :
    ∃ p q, Pairable pts p q ∧ closestPair pts = ⟨p, q, ((dist p q : ℝ) : EReal)⟩ := by
  have hclose : closestPair pts =
      closestRec (sortBy cmpX pts) (sortBy cmpY pts) := by
    unfold closestPair
    rw [if_neg (by omega)]
  have hpx := sortBy_perm cmpX pts
  have hpy := sortBy_perm cmpY pts
  rcases closestRec_structure (sortBy cmpX pts).length (sortBy cmpX pts)
      (sortBy cmpY pts) (le_refl _) with hs | ⟨p, q, hpq, hs⟩
  · -- impossible: there is a pair in `pts`, so the result distance is finite
    exfalso
    rcases pts with _ | ⟨a, _ | ⟨b, t⟩⟩
    · simp at h
    · simp at h
    · have hpair : Pairable (a :: b :: t) a b :=
        pairable_cons_self (List.mem_cons_self b t)
      have hle := closestRec_le_of_pairable (sortX_sorted (a :: b :: t))
        (sortY_sorted_y (a :: b :: t)) (hpair.of_perm hpx.symm) (hpair.of_perm hpy.symm)
      rw [hs] at hle
      exact absurd (top_le_iff.mp hle) (EReal.coe_ne_top _)
  · refine ⟨p, q, ?_, by rw [hclose, hs]⟩
    rcases hpq with h' | h'
    · exact h'.of_perm hpx
    · exact h'.of_perm hpy

/-! ### The claims -/

/-- C1: for every finite point multiset with at least 2 points, the distance of the
result returned by the divide-and-conquer `closestPair` equals the distance of the
result returned by the exhaustive brute-force solver `bruteForce` on the same multiset. -/
theorem claim_C1 {pts : List Point} (h : 2 ≤ pts.length) :
    (closestPair pts).dist = (bruteForce pts).dist := by
  rw [closestPair_dist_eq_minPairDist h, bruteForce_dist_eq]

theorem claim_C1_witness :
    2 ≤ ([⟨0,0⟩, ⟨3,4⟩, ⟨10,0⟩] : List Point).length ∧
      (closestPair [⟨0,0⟩, ⟨3,4⟩, ⟨10,0⟩]).dist =
        (bruteForce [⟨0,0⟩, ⟨3,4⟩, ⟨10,0⟩]).dist :=
  ⟨by decide, claim_C1 (by decide)⟩

/-- C2 (refuted by the code, cf. spec §4.4 step 3 and §9): on the top-level call with
`Px = Py = [(0,0),(0,0),(0,0),(0,1)]` — which is x-sorted, y-sorted, and has n = 4 > 3 —
`XL = Px[0..2)` has size 2 = n/2, but the partition loop routes all three copies of the
midpoint `(0,0)` to `YL` (they satisfy the coordinate test), so `YL` has size 3 ≠ 2 and
`YR` has size 1 ≠ 2: the partition of `Py` does not match the sizes of `XL`/`XR` when
several points share the midpoint's coordinates. -/
theorem claim_C2 :
    ([⟨0,0⟩, ⟨0,0⟩, ⟨0,0⟩, ⟨0,1⟩] : List Point).Pairwise lexXle ∧
    ([⟨0,0⟩, ⟨0,0⟩, ⟨0,0⟩, ⟨0,1⟩] : List Point).Pairwise lexYle ∧
    3 < ([⟨0,0⟩, ⟨0,0⟩, ⟨0,0⟩, ⟨0,1⟩] : List Point).length ∧
    (([⟨0,0⟩, ⟨0,0⟩, ⟨0,0⟩, ⟨0,1⟩] : List Point).take
        (([⟨0,0⟩, ⟨0,0⟩, ⟨0,0⟩, ⟨0,1⟩] : List Point).length / 2)).length = 2 ∧
    (partitionY [⟨0,0⟩, ⟨0,0⟩, ⟨0,0⟩, ⟨0,1⟩]
        (([⟨0,0⟩, ⟨0,0⟩, ⟨0,0⟩, ⟨0,1⟩] : List Point).get ⟨2, by decide⟩)
        (([⟨0,0⟩, ⟨0,0⟩, ⟨0,0⟩, ⟨0,1⟩] : List Point).take 2).isEmpty).1.length = 3 ∧
    (partitionY [⟨0,0⟩, ⟨0,0⟩, ⟨0,0⟩, ⟨0,1⟩]
        (([⟨0,0⟩, ⟨0,0⟩, ⟨0,0⟩, ⟨0,1⟩] : List Point).get ⟨2, by decide⟩)
        (([⟨0,0⟩, ⟨0,0⟩, ⟨0,0⟩, ⟨0,1⟩] : List Point).take 2).isEmpty).2.length = 1 := by
  refine ⟨by decide, by decide, by decide, by decide, ?_, ?_⟩ <;> decide

/-- C3 (counterexample): the sentinel result of `closestPair` on the empty input has
`dist = ⊤`, which is not the Euclidean distance of its two stored points `(0,0)`. -/
theorem claim_C3_counterexample :
    ¬ ((closestPair []).dist =
        ((dist (closestPair []).a (closestPair []).b : ℝ) : EReal)) := by
  have h : closestPair [] = ⟨origin, origin, ⊤⟩ := closestPair_small (by decide)
  rw [h]
  intro hc
  exact EReal.coe_ne_top _ hc.symm

/-- C3 (amended): every result produced by `bruteForce`, `closestInStrip`, `closestRec`
or `closestPair` satisfies `dist = EuclideanDistance(a, b)` UNLESS it is a sentinel:
`bruteForce`, `closestRec` and `closestPair` may return `{(0,0),(0,0),∞}`, and
`closestInStrip` may return the sentinel `{(0,0),(0,0),delta}` carrying the borrowed
bound `delta`. -/
theorem claim_C3_amended :
    (∀ pts : List Point, bruteForce pts = ⟨origin, origin, ⊤⟩ ∨
      (bruteForce pts).dist =
        ((dist (bruteForce pts).a (bruteForce pts).b : ℝ) : EReal)) ∧
    (∀ (strip : List Point) (delta : EReal),
      closestInStrip strip delta = ⟨origin, origin, delta⟩ ∨
      (closestInStrip strip delta).dist =
        ((dist (closestInStrip strip delta).a (closestInStrip strip delta).b : ℝ) : EReal)) ∧
    (∀ Px Py : List Point, closestRec Px Py = ⟨origin, origin, ⊤⟩ ∨
      (closestRec Px Py).dist =
        ((dist (closestRec Px Py).a (closestRec Px Py).b : ℝ) : EReal)) ∧
    (∀ pts : List Point, closestPair pts = ⟨origin, origin, ⊤⟩ ∨
      (closestPair pts).dist =
        ((dist (closestPair pts).a (closestPair pts).b : ℝ) : EReal)) := by
  refine ⟨?_, ?_, ?_, ?_⟩
  · intro pts
    rcases bruteForce_structure pts with h | ⟨p, q, _, h⟩
    · exact Or.inl h
    · right
      rw [h]
  · intro strip delta
    rcases closestInStrip_structure strip delta with h | ⟨p, q, _, h, _⟩
    · exact Or.inl h
    · right
      rw [h]
  · intro Px Py
    rcases closestRec_structure Px.length Px Py (le_refl _) with h | ⟨p, q, _, h⟩
    · exact Or.inl h
    · right
      rw [h]
  · intro pts
    by_cases h2 : 2 ≤ pts.length
    · rcases closestPair_realized h2 with ⟨p, q, _, h⟩
      right
      rw [h]
    · exact Or.inl (closestPair_small (by omega))

/-- C4: for every input multiset with at least 2 points, `closestPair` returns a result
whose distance is finite and equal to the distance of its two points, and whose two
points are both members of the input multiset — the placeholder sentinel is never
returned for such inputs. -/
theorem claim_C4 {pts : List Point} (h : 2 ≤ pts.length) :
    (closestPair pts).a ∈ pts ∧ (closestPair pts).b ∈ pts ∧
    (closestPair pts).dist =
      ((dist (closestPair pts).a (closestPair pts).b : ℝ) : EReal) ∧
    (closestPair pts).dist ≠ ⊤ := by
  rcases closestPair_realized h with ⟨p, q, hpq, hres⟩
  rw [hres]
  exact ⟨hpq.mem_left, hpq.mem_right, rfl, EReal.coe_ne_top _⟩

theorem claim_C4_witness :
    2 ≤ ([⟨0,0⟩, ⟨3,4⟩] : List Point).length ∧
      ((closestPair [⟨0,0⟩, ⟨3,4⟩]).a ∈ ([⟨0,0⟩, ⟨3,4⟩] : List Point) ∧
       (closestPair [⟨0,0⟩, ⟨3,4⟩]).b ∈ ([⟨0,0⟩, ⟨3,4⟩] : List Point) ∧
       (closestPair [⟨0,0⟩, ⟨3,4⟩]).dist =
         ((dist (closestPair [⟨0,0⟩, ⟨3,4⟩]).a (closestPair [⟨0,0⟩, ⟨3,4⟩]).b : ℝ) : EReal) ∧
       (closestPair [⟨0,0⟩, ⟨3,4⟩]).dist ≠ ⊤) :=
  ⟨by decide, claim_C4 (by decide)⟩

/-- C5: for every sequence of points sorted ascending by y and every bound `delta`,
`closestInStrip` returns a result whose distance never exceeds `delta`; it equals the
minimum pairwise distance (with the returned points realizing it) whenever that minimum
is strictly below `delta`, and otherwise it is the sentinel result carrying `delta`. -/
theorem claim_C5 {strip : List Point}
    (hsort : strip.Pairwise (fun a b => a.y ≤ b.y)) (delta : EReal) :
    (closestInStrip strip delta).dist ≤ delta ∧
    (minPairDist strip < delta →
      (closestInStrip strip delta).dist = minPairDist strip ∧
      Pairable strip (closestInStrip strip delta).a (closestInStrip strip delta).b ∧
      (closestInStrip strip delta).dist =
        ((dist (closestInStrip strip delta).a (closestInStrip strip delta).b : ℝ) : EReal)) ∧
    (¬ minPairDist strip < delta →
      closestInStrip strip delta = ⟨origin, origin, delta⟩) := by
  have hle_min : (closestInStrip strip delta).dist ≤ minPairDist strip := by
    apply le_minDistFold
    intro pq hpq
    exact closestInStrip_le_of_mem hsort (by rwa [Prod.mk.eta]) delta
  refine ⟨closestInStrip_dist_le strip delta, ?_, ?_⟩
  · intro hmin
    rcases closestInStrip_structure strip delta with hs | ⟨p, q, hpq, hs, hlt⟩
    · exfalso
      have hd : (closestInStrip strip delta).dist = delta := by rw [hs]
      have h1 := lt_of_le_of_lt hle_min hmin
      rw [hd] at h1
      exact lt_irrefl _ h1
    · have hge : minPairDist strip ≤ (closestInStrip strip delta).dist := by
        rw [hs]
        exact minPairDist_le_of_pairable hpq
      refine ⟨le_antisymm hle_min hge, ?_, ?_⟩
      · rw [hs]
        exact hpq
      · rw [hs]
  · intro hmin
    rcases closestInStrip_structure strip delta with hs | ⟨p, q, hpq, hs, hlt⟩
    · exact hs
    · exact absurd (lt_of_le_of_lt (minPairDist_le_of_pairable hpq) hlt) hmin

theorem claim_C5_witness :
    ([⟨0,0⟩, ⟨0,3⟩] : List Point).Pairwise (fun a b => a.y ≤ b.y) ∧
      ((closestInStrip [⟨0,0⟩, ⟨0,3⟩] ⊤).dist ≤ ⊤ ∧
       (minPairDist [⟨0,0⟩, ⟨0,3⟩] < ⊤ →
         (closestInStrip [⟨0,0⟩, ⟨0,3⟩] ⊤).dist = minPairDist [⟨0,0⟩, ⟨0,3⟩] ∧
         Pairable [⟨0,0⟩, ⟨0,3⟩] (closestInStrip [⟨0,0⟩, ⟨0,3⟩] ⊤).a
           (closestInStrip [⟨0,0⟩, ⟨0,3⟩] ⊤).b ∧
         (closestInStrip [⟨0,0⟩, ⟨0,3⟩] ⊤).dist =
           ((dist (closestInStrip [⟨0,0⟩, ⟨0,3⟩] ⊤).a
             (closestInStrip [⟨0,0⟩, ⟨0,3⟩] ⊤).b : ℝ) : EReal)) ∧
       (¬ minPairDist [⟨0,0⟩, ⟨0,3⟩] < ⊤ →
         closestInStrip [⟨0,0⟩, ⟨0,3⟩] ⊤ = ⟨origin, origin, ⊤⟩)) :=
  ⟨by decide, claim_C5 (by decide) ⊤⟩

/-- C6: `bruteForce` returns the sentinel with infinite distance for fewer than 2
points; for at least 2 points it returns a pair-result realizing some pair of the scan
order `pairList`, whose distance is a global minimum over all pairs, and every pair
scanned strictly earlier has strictly greater distance (ties keep the first found). -/
theorem claim_C6 (pts : List Point) :
    (pts.length < 2 → bruteForce pts = ⟨origin, origin, ⊤⟩) ∧
    (2 ≤ pts.length →
      ∃ l₁ pq l₂, pairList pts = l₁ ++ pq :: l₂ ∧
        bruteForce pts = ⟨pq.1, pq.2, ((dist pq.1 pq.2 : ℝ) : EReal)⟩ ∧
        (∀ pq' ∈ pairList pts,
          (bruteForce pts).dist ≤ ((dist pq'.1 pq'.2 : ℝ) : EReal)) ∧
        (∀ pq' ∈ l₁,
          (bruteForce pts).dist < ((dist pq'.1 pq'.2 : ℝ) : EReal))) := by
  constructor
  · intro h
    rcases pts with _ | ⟨a, _ | ⟨b, t⟩⟩
    · rfl
    · rfl
    · simp only [List.length_cons] at h
      omega
  · intro h
    rcases pts with _ | ⟨a, _ | ⟨b, t⟩⟩
    · simp at h
    · simp at h
    · have hglobal : ∀ pq' ∈ pairList (a :: b :: t),
          (bruteForce (a :: b :: t)).dist ≤ ((dist pq'.1 pq'.2 : ℝ) : EReal) := by
        intro pq' hpq'
        rw [bruteForce_eq_foldl]
        exact foldl_update_le_of_mem hpq' _
      rcases foldl_update_first (pairList (a :: b :: t)) ⟨origin, origin, ⊤⟩ with
        hs | ⟨l₁, pq, l₂, hsplit, hres, _, hfirst⟩
      · exfalso
        have hab : (a, b) ∈ pairList (a :: b :: t) :=
          List.mem_append_left _ (List.mem_map.mpr ⟨b, List.mem_cons_self b t, rfl⟩)
        have hle := hglobal (a, b) hab
        rw [bruteForce_eq_foldl, hs] at hle
        exact absurd (top_le_iff.mp hle) (EReal.coe_ne_top _)
      · refine ⟨l₁, pq, l₂, hsplit, by rw [bruteForce_eq_foldl, hres], hglobal, ?_⟩
        intro pq' hpq'
        have := hfirst pq' hpq'
        rw [bruteForce_eq_foldl, hres]
        exact this

theorem claim_C6_witness :
    2 ≤ ([⟨0,0⟩, ⟨3,4⟩] : List Point).length ∧
      (∃ l₁ pq l₂, pairList [⟨0,0⟩, ⟨3,4⟩] = l₁ ++ pq :: l₂ ∧
        bruteForce [⟨0,0⟩, ⟨3,4⟩] = ⟨pq.1, pq.2, ((dist pq.1 pq.2 : ℝ) : EReal)⟩ ∧
        (∀ pq' ∈ pairList [⟨0,0⟩, ⟨3,4⟩],
          (bruteForce [⟨0,0⟩, ⟨3,4⟩]).dist ≤ ((dist pq'.1 pq'.2 : ℝ) : EReal)) ∧
        (∀ pq' ∈ l₁,
          (bruteForce [⟨0,0⟩, ⟨3,4⟩]).dist < ((dist pq'.1 pq'.2 : ℝ) : EReal))) :=
  ⟨by decide, (claim_C6 [⟨0,0⟩, ⟨3,4⟩]).2 (by decide)⟩

/-- C7: for every input of size 0 or 1, `closestPair` returns the sentinel result with
distance `⊤` (positive infinity), and no error is raised (the function is total). -/
theorem claim_C7 {pts : List Point} (h : pts.length < 2) :
    closestPair pts = ⟨origin, origin, ⊤⟩ :=
  closestPair_small h

theorem claim_C7_witness :
    ([⟨1,2⟩] : List Point).length < 2 ∧
      closestPair [⟨1,2⟩] = ⟨origin, origin, ⊤⟩ :=
  ⟨by decide, claim_C7 (by decide)⟩

/-- C8: `closestRec` terminates: in the recursive case n > 3 it recurses on the x-sorted
halves of sizes n/2 and n - n/2, both strictly smaller than n, and satisfies its
defining recursion equation (the Lean embedding is a total function by this measure). -/
theorem claim_C8 {Px Py : List Point} (h : 3 < Px.length) :
    (Px.take (Px.length / 2)).length = Px.length / 2 ∧
    (Px.drop (Px.length / 2)).length = Px.length - Px.length / 2 ∧
    Px.length / 2 < Px.length ∧
    Px.length - Px.length / 2 < Px.length ∧
    closestRec Px Py =
      combine Py (Px.get ⟨Px.length / 2, by omega⟩)
        (closestRec (Px.take (Px.length / 2))
          (partitionY Py (Px.get ⟨Px.length / 2, by omega⟩)
            (Px.take (Px.length / 2)).isEmpty).1)
        (closestRec (Px.drop (Px.length / 2))
          (partitionY Py (Px.get ⟨Px.length / 2, by omega⟩)
            (Px.take (Px.length / 2)).isEmpty).2) := by
  refine ⟨?_, ?_, by omega, by omega, ?_⟩
  · simp only [List.length_take]
    omega
  · simp only [List.length_drop]
  · exact closestRec_rec (by omega) (by omega)

theorem claim_C8_witness :
    3 < ([⟨0,0⟩, ⟨1,0⟩, ⟨2,0⟩, ⟨3,0⟩] : List Point).length ∧
      ((([⟨0,0⟩, ⟨1,0⟩, ⟨2,0⟩, ⟨3,0⟩] : List Point).take (([⟨0,0⟩, ⟨1,0⟩, ⟨2,0⟩, ⟨3,0⟩] : List Point).length / 2)).length = ([⟨0,0⟩, ⟨1,0⟩, ⟨2,0⟩, ⟨3,0⟩] : List Point).length / 2 ∧
       (([⟨0,0⟩, ⟨1,0⟩, ⟨2,0⟩, ⟨3,0⟩] : List Point).drop (([⟨0,0⟩, ⟨1,0⟩, ⟨2,0⟩, ⟨3,0⟩] : List Point).length / 2)).length = ([⟨0,0⟩, ⟨1,0⟩, ⟨2,0⟩, ⟨3,0⟩] : List Point).length - ([⟨0,0⟩, ⟨1,0⟩, ⟨2,0⟩, ⟨3,0⟩] : List Point).length / 2 ∧
       ([⟨0,0⟩, ⟨1,0⟩, ⟨2,0⟩, ⟨3,0⟩] : List Point).length / 2 < ([⟨0,0⟩, ⟨1,0⟩, ⟨2,0⟩, ⟨3,0⟩] : List Point).length ∧
       ([⟨0,0⟩, ⟨1,0⟩, ⟨2,0⟩, ⟨3,0⟩] : List Point).length - ([⟨0,0⟩, ⟨1,0⟩, ⟨2,0⟩, ⟨3,0⟩] : List Point).length / 2 < ([⟨0,0⟩, ⟨1,0⟩, ⟨2,0⟩, ⟨3,0⟩] : List Point).length ∧
       closestRec [⟨0,0⟩, ⟨1,0⟩, ⟨2,0⟩, ⟨3,0⟩] [] =
         combine [] (([⟨0,0⟩, ⟨1,0⟩, ⟨2,0⟩, ⟨3,0⟩] : List Point).get ⟨([⟨0,0⟩, ⟨1,0⟩, ⟨2,0⟩, ⟨3,0⟩] : List Point).length / 2, by decide⟩)
           (closestRec (([⟨0,0⟩, ⟨1,0⟩, ⟨2,0⟩, ⟨3,0⟩] : List Point).take (([⟨0,0⟩, ⟨1,0⟩, ⟨2,0⟩, ⟨3,0⟩] : List Point).length / 2))
             (partitionY [] (([⟨0,0⟩, ⟨1,0⟩, ⟨2,0⟩, ⟨3,0⟩] : List Point).get ⟨([⟨0,0⟩, ⟨1,0⟩, ⟨2,0⟩, ⟨3,0⟩] : List Point).length / 2, by decide⟩)
               (([⟨0,0⟩, ⟨1,0⟩, ⟨2,0⟩, ⟨3,0⟩] : List Point).take (([⟨0,0⟩, ⟨1,0⟩, ⟨2,0⟩, ⟨3,0⟩] : List Point).length / 2)).isEmpty).1)
           (closestRec (([⟨0,0⟩, ⟨1,0⟩, ⟨2,0⟩, ⟨3,0⟩] : List Point).drop (([⟨0,0⟩, ⟨1,0⟩, ⟨2,0⟩, ⟨3,0⟩] : List Point).length / 2))
             (partitionY [] (([⟨0,0⟩, ⟨1,0⟩, ⟨2,0⟩, ⟨3,0⟩] : List Point).get ⟨([⟨0,0⟩, ⟨1,0⟩, ⟨2,0⟩, ⟨3,0⟩] : List Point).length / 2, by decide⟩)
               (([⟨0,0⟩, ⟨1,0⟩, ⟨2,0⟩, ⟨3,0⟩] : List Point).take (([⟨0,0⟩, ⟨1,0⟩, ⟨2,0⟩, ⟨3,0⟩] : List Point).length / 2)).isEmpty).2)) :=
  ⟨by decide, @claim_C8 [⟨0,0⟩, ⟨1,0⟩, ⟨2,0⟩, ⟨3,0⟩] [] (by decide)⟩

/-- C9: for every input sequence of points and every permutation of it, `closestPair`
returns the same distance on both orderings. -/
theorem claim_C9 {l₁ l₂ : List Point} (h : l₁.Perm l₂) :
    (closestPair l₁).dist = (closestPair l₂).dist := by
  by_cases h2 : 2 ≤ l₁.length
  · have h2' : 2 ≤ l₂.length := by
      rw [← h.length_eq]
      exact h2
    rw [closestPair_dist_eq_minPairDist h2, closestPair_dist_eq_minPairDist h2',
      minPairDist_perm h]
  · have h1 : l₁.length < 2 := by omega
    have h2' : l₂.length < 2 := by
      rw [← h.length_eq]
      omega
    rw [closestPair_small h1, closestPair_small h2']

theorem claim_C9_witness :
    ([⟨0,0⟩, ⟨3,4⟩, ⟨1,1⟩] : List Point).Perm [⟨1,1⟩, ⟨0,0⟩, ⟨3,4⟩] ∧
      (closestPair [⟨0,0⟩, ⟨3,4⟩, ⟨1,1⟩]).dist =
        (closestPair [⟨1,1⟩, ⟨0,0⟩, ⟨3,4⟩]).dist :=
  ⟨by decide, claim_C9 (by decide)⟩

/-- C10: the partition loop of `closestRec` is equivalent to the pure coordinate test
"p goes to YL iff p.x < midPoint.x, or (p.x = midPoint.x and p.y ≤ midPoint.y)" — for
every value of the `XL.empty()` flag and of the modelled address test, so the nested
branches are never the deciding factor; moreover `XL` is non-empty whenever n > 3. -/
theorem claim_C10 :
    (∀ (midPoint p : Point) (xlEmpty addrNe : Bool),
      routeLeft midPoint p xlEmpty addrNe =
        decide (p.x < midPoint.x ∨ (p.x = midPoint.x ∧ p.y ≤ midPoint.y))) ∧
    (∀ Px : List Point, 3 < Px.length → (Px.take (Px.length / 2)).isEmpty = false) := by
  constructor
  · intro m p e a
    rw [routeLeft_eq_lex]
    exact decide_eq_decide.mpr Iff.rfl
  · intro Px h
    cases hx : Px.take (Px.length / 2) with
    | nil =>
        exfalso
        have hlen := congrArg List.length hx
        simp only [List.length_take, List.length_nil] at hlen
        omega
    | cons a t => rfl

theorem claim_C10_witness :
    3 < ([⟨0,0⟩, ⟨1,0⟩, ⟨2,0⟩, ⟨3,0⟩] : List Point).length ∧
      (([⟨0,0⟩, ⟨1,0⟩, ⟨2,0⟩, ⟨3,0⟩] : List Point).take
        (([⟨0,0⟩, ⟨1,0⟩, ⟨2,0⟩, ⟨3,0⟩] : List Point).length / 2)).isEmpty = false :=
  ⟨by decide, claim_C10.2 [⟨0,0⟩, ⟨1,0⟩, ⟨2,0⟩, ⟨3,0⟩] (by decide)⟩

end ClosestPoints
